import Mathlib

/-!
Shallow embedding of `src/examples/nim.py` (a TCP Nim game server).

The game engine (`class Nim`) keeps a Python list of ints `_piles`
(initially `[3, 4, 5]`).  Python list subscripts resolve negative indices
from the end of the list and raise `IndexError` when out of range, so we
first model Python list read/write.  A raised exception is modelled by
`none`; machine integers are Python's arbitrary-precision ints, modelled
by `Int`.
-/

namespace Nim

/-- Python index normalisation: a negative index `i` addresses `len + i`. -/
def pyNorm (l : List Int) (i : Int) : Int :=
  if i < 0 then (l.length : Int) + i else i

/-- Python list read `l[i]`: `none` models an `IndexError`. -/
def pyIndex (l : List Int) (i : Int) : Option Int :=
  if pyNorm l i < 0 then none else l.get? (pyNorm l i).toNat

/-- Python list write `l[i] = v`: `none` models an `IndexError`. -/
def pySet (l : List Int) (i : Int) (v : Int) : Option (List Int) :=
  if pyNorm l i < 0 then none
  else if pyNorm l i < (l.length : Int) then some (l.set (pyNorm l i).toNat v)
  else none

/-- `Nim.move_is_valid` from nim.py, lines 31-34:
`amount > 0 and pile < len(self._piles) and self._piles[pile] >= amount`.
Python `and` short-circuits, so the subscript `self._piles[pile]` (which can
raise `IndexError`, modelled as `none`) is only evaluated when the first two
conjuncts hold. -/
def move_is_valid (piles : List Int) (pile amount : Int) : Option Bool :=
  if 0 < amount then
    if pile < (piles.length : Int) then
      (pyIndex piles pile).map (fun v => decide (amount ≤ v))
    else some false
  else some false

/-- `Nim.play` from nim.py, lines 36-39:
`assert(self.move_is_valid(pile, amount)); self._piles[pile] -= amount`.
A failed assertion (`some false`) or an exception raised while evaluating
the assertion's condition (`none`) aborts before any mutation, so failure
yields `none` and the caller's pile list is untouched. -/
def play (piles : List Int) (pile amount : Int) : Option (List Int) :=
  if move_is_valid piles pile amount = some true then
    (pyIndex piles pile).bind (fun v => pySet piles pile (v - amount))
  else none

/-- `Nim.can_continue` from nim.py, lines 41-43: `sum(self._piles) != 0`. -/
def can_continue (piles : List Int) : Bool :=
  decide (piles.sum ≠ 0)

/-- `Nim.random_move` from nim.py, lines 45-48:
`pile = random.choice([i for i, x in enumerate(self._piles) if x > 0])`
`amount = random.randint(1, self._piles[pile])`.
The randomness source is made explicit: `c` selects the element of the
candidate list (`random.choice` returns `cands[k]` for a uniformly drawn
`k`; every outcome is realised as `c` ranges over `Nat`), and `a` selects
the amount (`random.randint(1, n)` yields every value of `[1, n]` as `a`
ranges over `Nat`).  `random.choice` on an empty list raises `IndexError`
and `random.randint(1, n)` with `n < 1` raises `ValueError`; both are
modelled as `none`. -/
def random_move (piles : List Int) (c a : Nat) : Option (Nat × Int) :=
  let cands := (List.range piles.length).filter (fun i => 0 < piles.getD i 0)
  match cands with
  | [] => none
  | p :: ps =>
    let pile := (p :: ps).getD (c % (p :: ps).length) 0
    let size := piles.getD pile 0
    if size ≤ 0 then none
    else some (pile, 1 + ((a % size.toNat : Nat) : Int))

/-- Game states reachable in a session: `Nim.__init__` sets
`self._piles = [3, 4, 5]` (line 29), and the state is mutated only through
successful `Nim.play` calls. -/
inductive Reachable : List Int → Prop where
  | init : Reachable [3, 4, 5]
  | step {s : List Int} {p a : Int} {s2 : List Int} :
      Reachable s → play s p a = some s2 → Reachable s2

end Nim

namespace NimDriver

/-- Digit scanner for Python `int(str)` (nim.py line 117 `int(line)`),
restricted to ASCII inputs (which is all the theorems below apply it to).
After the leading digit, CPython accepts further digits with single
underscores allowed between two digits (PEP 515): an underscore may not
follow another underscore and may not end the literal.  `u` records
whether the previous character was an underscore. -/
def pyDigitsAux (acc : Nat) (u : Bool) : List Char → Option Nat
  | [] => if u then none else some acc
  | c :: cs =>
    if c.isDigit then pyDigitsAux (10 * acc + (c.toNat - 48)) false cs
    else if c = '_' && !u then pyDigitsAux acc true cs
    else none

/-- Nonempty digit run, first character a digit, underscores between digits. -/
def pyDigits : List Char → Option Nat
  | [] => none
  | c :: cs => if c.isDigit then pyDigitsAux (c.toNat - 48) false cs else none

/-- Strip leading and trailing whitespace, as Python `int(str)` does before
parsing (ASCII whitespace only in this model). -/
def pyStrip (s : String) : List Char :=
  ((s.toList.dropWhile Char.isWhitespace).reverse.dropWhile Char.isWhitespace).reverse

/-- Optional leading sign, then a digit run scanned by `dig`: the shared
shape of the real parser and of the spec-side one. -/
def pySigned (dig : List Char → Option Nat) : List Char → Option Int
  | [] => (dig []).map Int.ofNat
  | c :: rest =>
    if c = '+' then (dig rest).map Int.ofNat
    else if c = '-' then (dig rest).map (fun n => -Int.ofNat n)
    else (dig (c :: rest)).map Int.ofNat

/-- Python `int(line)` (nim.py line 117) on ASCII input: optional
whitespace, optional sign, then a nonempty underscore-grouped digit run;
`none` models the `ValueError` caught on line 119.  Note that the result of
`line.strip()` on line 115 is discarded, but `int` strips whitespace itself,
so the behaviour is as if the line had been stripped. -/
def pyInt (s : String) : Option Int :=
  pySigned pyDigits (pyStrip s)

/-- Modelled from the spec: "accepts the conventional textual
representation of a signed integer (leading/trailing whitespace
tolerated)" — optional whitespace, an optional sign, then a nonempty run
of decimal digits, and nothing else.  This spec-side definition exists
only to be compared with `pyInt`, the model of what the code accepts. -/
def convDigitsAux (acc : Nat) : List Char → Option Nat
  | [] => some acc
  | c :: cs =>
    if c.isDigit then convDigitsAux (10 * acc + (c.toNat - 48)) cs else none

/-- Spec-side nonempty plain digit run (no underscores). -/
def convDigits : List Char → Option Nat
  | [] => none
  | c :: cs => if c.isDigit then convDigitsAux (c.toNat - 48) cs else none

/-- Spec-side conventional signed-integer representation. -/
def conventionalInt (s : String) : Option Int :=
  pySigned convDigits (pyStrip s)

/-- The invalid-integer feedback line written on nim.py line 120. -/
def invalidIntMsg : String := "Input wasn't a valid integer.\n"

/-- The invalid-move feedback line written on nim.py line 76. -/
def invalidMoveMsg : String := "Not a valid move.\n"

/-- The pile prompt of `NimDriver._ask_move`, nim.py line 105. -/
def pilePrompt : String := "Which pile would you like to take from?"

/-- The amount prompt of `NimDriver._ask_move`, nim.py line 106. -/
def amountPrompt : String := "How many would you like to take?"

/-- `NimDriver._read_int` from nim.py, lines 109-121, as a function of the
list of lines the peer will send.  Each loop iteration writes the prompt,
reads one line and tries `int` on it; on failure it writes `invalidIntMsg`
and loops.  `asyncio.StreamReader.readline` returns the empty string once
the peer has closed the stream (EOF) without raising, which the model
renders as `headD ""` when the input list is exhausted (the input list then
stays empty, as every further read also yields `""`).  `fuel` bounds the
number of loop iterations; the first component is `none` when the loop has
not returned within `fuel` iterations, and the second component collects
everything written to the stream. -/
def read_int (prompt : String) : List String → Nat → Option (Int × List String) × List String
  | _, 0 => (none, [])
  | input, fuel + 1 =>
    let line := input.headD ""
    match pyInt line with
    | some v => (some (v, input.tail), [prompt ++ "\n> "])
    | none =>
      let r := read_int prompt input.tail fuel
      (r.1, (prompt ++ "\n> ") :: invalidIntMsg :: r.2)

/-- `NimDriver._ask_move` from nim.py, lines 104-107: read the pile index,
then the amount. -/
def ask_move (input : List String) (fuel : Nat) :
    Option ((Int × Int) × List String) × List String :=
  match read_int pilePrompt input fuel with
  | (none, o) => (none, o)
  | (some (p, input2), o) =>
    match read_int amountPrompt input2 fuel with
    | (none, o2) => (none, o ++ o2)
    | (some (a, input3), o2) => (some ((p, a), input3), o ++ o2)

/-- The move-solicitation loop of `NimDriver._round`, nim.py lines 73-79:
`pile, amount = await self._ask_move()` followed by
`while not self._nim.move_is_valid(pile, amount): ...` which writes
`invalidMoveMsg` and solicits a fresh pile and amount.  The pile state
`piles` is only read (for validity), never changed, by this loop.  `fuel`
bounds the iterations of the while loop; `fuelR` bounds each inner
`_read_int` loop.  A first component of `none` covers non-termination
within the fuel as well as an `IndexError` escaping from
`move_is_valid` in the loop condition (which would abort the session). -/
def solicit (piles : List Int) : List String → Nat → Nat →
    Option ((Int × Int) × List String) × List String
  | _, 0, _ => (none, [])
  | input, fuel + 1, fuelR =>
    match ask_move input fuelR with
    | (none, o) => (none, o)
    | (some ((p, a), input2), o) =>
      match Nim.move_is_valid piles p a with
      | none => (none, o)
      | some true => (some ((p, a), input2), o)
      | some false =>
        let r := solicit piles input2 fuel fuelR
        (r.1, o ++ invalidMoveMsg :: r.2)

end NimDriver

namespace Nim

lemma pyNorm_lt {s : List Int} {p : Int} {j : Nat}
    (hj : pyNorm s p = (j : Int)) (hlen : j < s.length) : p < (s.length : Int) := by
  unfold pyNorm at hj
  split at hj <;> omega

lemma pyNorm_of_nonneg {s : List Int} {p : Int} (hp : 0 ≤ p) :
    pyNorm s p = ((p.toNat : Nat) : Int) := by
  unfold pyNorm
  rw [if_neg (by omega)]
  omega

lemma pyNorm_of_neg {s : List Int} {p : Int} (hp : p < 0) :
    pyNorm s p = (s.length : Int) + p := by
  unfold pyNorm
  rw [if_pos hp]

lemma pyIndex_eval {s : List Int} {p : Int} {j : Nat} (hj : pyNorm s p = (j : Int)) :
    pyIndex s p = s.get? j := by
  unfold pyIndex
  rw [hj, if_neg (by omega)]
  have h2 : ((j : Int)).toNat = j := by omega
  rw [h2]

lemma pySet_eval {s : List Int} {p : Int} {j : Nat} (v : Int)
    (hj : pyNorm s p = (j : Int)) (hlen : j < s.length) :
    pySet s p v = some (s.set j v) := by
  unfold pySet
  rw [hj, if_neg (by omega), if_pos (by omega)]
  have h2 : ((j : Int)).toNat = j := by omega
  rw [h2]

lemma move_is_valid_eval {s : List Int} {p a : Int} {j : Nat} {v : Int}
    (hj : pyNorm s p = (j : Int)) (hlen : j < s.length) (hv : s.get? j = some v)
    (ha : 0 < a) :
    move_is_valid s p a = some (decide (a ≤ v)) := by
  unfold move_is_valid
  rw [if_pos ha, if_pos (pyNorm_lt hj hlen), pyIndex_eval hj, hv]
  rfl

lemma move_is_valid_true_spec {s : List Int} {p a : Int}
    (h : move_is_valid s p a = some true) :
    ∃ (j : Nat) (v : Int), pyNorm s p = (j : Int) ∧ j < s.length ∧
      s.get? j = some v ∧ 0 < a ∧ a ≤ v := by
  unfold move_is_valid at h
  split at h
  · split at h
    · rcases hi : pyIndex s p with - | v
      · rw [hi] at h
        simp at h
      · rw [hi] at h
        simp only [Option.map_some', Option.some.injEq, decide_eq_true_eq] at h
        have hnn : 0 ≤ pyNorm s p := by
          by_contra hneg
          push_neg at hneg
          unfold pyIndex at hi
          rw [if_pos hneg] at hi
          exact Option.noConfusion hi
        have hji : pyIndex s p = s.get? (pyNorm s p).toNat := by
          unfold pyIndex
          rw [if_neg (by omega)]
        rw [hji] at hi
        refine ⟨(pyNorm s p).toNat, v, by omega, (List.get?_eq_some.mp hi).1, hi, ?_, h⟩
        assumption
    · exact absurd h (by simp)
  · exact absurd h (by simp)

lemma play_eval {s : List Int} {p a : Int} {j : Nat} {v : Int}
    (hj : pyNorm s p = (j : Int)) (hlen : j < s.length) (hv : s.get? j = some v)
    (h1 : 0 < a) (h2 : a ≤ v) :
    play s p a = some (s.set j (v - a)) := by
  unfold play
  rw [if_pos (by rw [move_is_valid_eval hj hlen hv h1, decide_eq_true h2]),
    pyIndex_eval hj, hv, Option.some_bind]
  exact pySet_eval _ hj hlen

lemma play_isSome_of_valid {s : List Int} {p a : Int}
    (h : move_is_valid s p a = some true) : (play s p a).isSome = true := by
  obtain ⟨j, v, hj, hlen, hv, h1, h2⟩ := move_is_valid_true_spec h
  rw [play_eval hj hlen hv h1 h2]
  rfl

lemma play_none_of_invalid {s : List Int} {p a : Int}
    (h : move_is_valid s p a ≠ some true) : play s p a = none := by
  unfold play
  rw [if_neg h]

lemma play_some_spec {s : List Int} {p a : Int} {s2 : List Int}
    (h : play s p a = some s2) :
    ∃ (j : Nat) (v : Int), pyNorm s p = (j : Int) ∧ j < s.length ∧
      s.get? j = some v ∧ 0 < a ∧ a ≤ v ∧ s2 = s.set j (v - a) := by
  by_cases hmv : move_is_valid s p a = some true
  · obtain ⟨j, v, hj, hlen, hv, h1, h2⟩ := move_is_valid_true_spec hmv
    refine ⟨j, v, hj, hlen, hv, h1, h2, ?_⟩
    rw [play_eval hj hlen hv h1 h2] at h
    exact (Option.some.injEq _ _ ▸ h).symm
  · rw [play_none_of_invalid hmv] at h
    exact Option.noConfusion h

lemma reachable_inv {s : List Int} (h : Reachable s) :
    s.length = 3 ∧ ∀ x ∈ s, 0 ≤ x := by
  induction h with
  | init => exact ⟨rfl, by decide⟩
  | step hr hp ih =>
    obtain ⟨j, v, hj, hlen, hv, h1, h2, h3⟩ := play_some_spec hp
    subst h3
    refine ⟨by rw [List.length_set]; exact ih.1, ?_⟩
    intro x hx
    rcases List.mem_or_eq_of_mem_set hx with hx | rfl
    · exact ih.2 x hx
    · omega

end Nim

namespace Nim

lemma move_is_valid_nonpos {s : List Int} {a : Int} (p : Int) (ha : a ≤ 0) :
    move_is_valid s p a = some false := by
  unfold move_is_valid
  rw [if_neg (by omega)]

lemma move_is_valid_index_ge {s : List Int} {p : Int} (a : Int)
    (hp : (s.length : Int) ≤ p) : move_is_valid s p a = some false := by
  unfold move_is_valid
  by_cases ha : 0 < a
  · rw [if_pos ha, if_neg (by omega)]
  · rw [if_neg ha]

lemma move_is_valid_raises {s : List Int} {p a : Int} (ha : 0 < a)
    (hp : p < -(s.length : Int)) : move_is_valid s p a = none := by
  unfold move_is_valid
  rw [if_pos ha, if_pos (by omega)]
  have hix : pyIndex s p = none := by
    unfold pyIndex
    rw [pyNorm_of_neg (by omega), if_pos (by omega)]
  rw [hix]
  rfl

lemma sum_zero_all_zero {s : List Int} (hnn : ∀ x ∈ s, 0 ≤ x) (hs : s.sum = 0) :
    ∀ x ∈ s, x = 0 := by
  induction s with
  | nil => intro x hx; exact absurd hx (List.not_mem_nil x)
  | cons y t ih =>
    rw [List.sum_cons] at hs
    have hy : 0 ≤ y := hnn y (List.mem_cons_self y t)
    have ht : 0 ≤ t.sum := List.sum_nonneg (fun x hx => hnn x (List.mem_cons_of_mem y hx))
    intro x hx
    rcases List.mem_cons.mp hx with rfl | hx
    · omega
    · exact ih (fun z hz => hnn z (List.mem_cons_of_mem y hz)) (by omega) x hx

lemma exists_pos_idx {s : List Int} (hnn : ∀ x ∈ s, 0 ≤ x) (hs : s.sum ≠ 0) :
    ∃ i, i < s.length ∧ 0 < s.getD i 0 := by
  induction s with
  | nil => exact absurd rfl hs
  | cons y t ih =>
    by_cases hy : 0 < y
    · exact ⟨0, by simp, by simpa using hy⟩
    · have hy0 : y = 0 := by
        have := hnn y (List.mem_cons_self y t)
        omega
      have ht : t.sum ≠ 0 := by
        rw [List.sum_cons, hy0, zero_add] at hs
        exact hs
      obtain ⟨i, hi, hpos⟩ := ih (fun z hz => hnn z (List.mem_cons_of_mem y hz)) ht
      exact ⟨i + 1, by simpa using hi, by simpa using hpos⟩

lemma getD_mem {l : List Nat} {n : Nat} (h : n < l.length) (d : Nat) :
    l.getD n d ∈ l := by
  rw [List.getD_eq_get?, List.get?_eq_get h]
  exact List.get_mem l n h

lemma random_move_eq_of_cands {s : List Int} {p : Nat} {ps : List Nat} (c a : Nat)
    (hcands : (List.range s.length).filter (fun i => 0 < s.getD i 0) = p :: ps) :
    random_move s c a =
      if s.getD ((p :: ps).getD (c % (p :: ps).length) 0) 0 ≤ 0 then none
      else some ((p :: ps).getD (c % (p :: ps).length) 0,
        1 + ((a % (s.getD ((p :: ps).getD (c % (p :: ps).length) 0) 0).toNat : Nat) : Int)) := by
  unfold random_move
  rw [hcands]

lemma random_move_legal {s : List Int} (hnn : ∀ x ∈ s, 0 ≤ x)
    (hsum : s.sum ≠ 0) (c a : Nat) :
    ∃ (p : Nat) (amt : Int), random_move s c a = some (p, amt) ∧
      0 < s.getD p 0 ∧ 1 ≤ amt ∧ amt ≤ s.getD p 0 := by
  obtain ⟨i, hi, hpos⟩ := exists_pos_idx hnn hsum
  have hmemi : i ∈ (List.range s.length).filter (fun k => 0 < s.getD k 0) := by
    rw [List.mem_filter]
    exact ⟨List.mem_range.mpr hi, by simpa using hpos⟩
  obtain ⟨p, ps, hcands⟩ : ∃ (p : Nat) (ps : List Nat),
      (List.range s.length).filter (fun k => 0 < s.getD k 0) = p :: ps := by
    rcases hc : (List.range s.length).filter (fun k => 0 < s.getD k 0) with - | ⟨p, ps⟩
    · rw [hc] at hmemi
      exact absurd hmemi (List.not_mem_nil i)
    · exact ⟨p, ps, rfl⟩
  have hrm := random_move_eq_of_cands c a hcands
  have hmem : (p :: ps).getD (c % (p :: ps).length) 0 ∈ p :: ps :=
    getD_mem (Nat.mod_lt c (by simp)) 0
  have hall : ∀ x ∈ p :: ps, 0 < s.getD x 0 := by
    intro x hx
    rw [← hcands] at hx
    have := (List.mem_filter.mp hx).2
    simpa using this
  have hpilepos : 0 < s.getD ((p :: ps).getD (c % (p :: ps).length) 0) 0 :=
    hall _ hmem
  rw [if_neg (by omega)] at hrm
  refine ⟨(p :: ps).getD (c % (p :: ps).length) 0,
    1 + ((a % (s.getD ((p :: ps).getD (c % (p :: ps).length) 0) 0).toNat : Nat) : Int),
    hrm, hpilepos, by omega, ?_⟩
  have hlt : a % (s.getD ((p :: ps).getD (c % (p :: ps).length) 0) 0).toNat
      < (s.getD ((p :: ps).getD (c % (p :: ps).length) 0) 0).toNat :=
    Nat.mod_lt a (by omega)
  omega

end Nim

namespace NimDriver

lemma pyDigitsAux_of_convDigitsAux : ∀ (cs : List Char) (acc n : Nat),
    convDigitsAux acc cs = some n → pyDigitsAux acc false cs = some n := by
  intro cs
  induction cs with
  | nil =>
    intro acc n h
    simpa [convDigitsAux, pyDigitsAux] using h
  | cons c t ih =>
    intro acc n h
    unfold convDigitsAux at h
    unfold pyDigitsAux
    by_cases hc : c.isDigit
    · rw [if_pos hc] at h
      rw [if_pos hc]
      exact ih _ _ h
    · rw [if_neg hc] at h
      exact Option.noConfusion h

lemma pyDigits_of_convDigits : ∀ (cs : List Char) (n : Nat),
    convDigits cs = some n → pyDigits cs = some n := by
  intro cs n h
  cases cs with
  | nil => exact absurd h (by simp [convDigits])
  | cons c t =>
    simp only [convDigits] at h
    simp only [pyDigits]
    by_cases hc : c.isDigit
    · rw [if_pos hc] at h
      rw [if_pos hc]
      exact pyDigitsAux_of_convDigitsAux t _ _ h
    · rw [if_neg hc] at h
      exact Option.noConfusion h

lemma pySigned_mono {d1 d2 : List Char → Option Nat}
    (hd : ∀ cs n, d1 cs = some n → d2 cs = some n) :
    ∀ (cs : List Char) (v : Int), pySigned d1 cs = some v → pySigned d2 cs = some v := by
  intro cs v h
  cases cs with
  | nil =>
    simp only [pySigned] at h ⊢
    obtain ⟨n, hn, hv⟩ := Option.map_eq_some'.mp h
    rw [hd _ _ hn]
    simpa using hv
  | cons c rest =>
    simp only [pySigned] at h ⊢
    by_cases h1 : c = '+'
    · rw [if_pos h1] at h ⊢
      obtain ⟨n, hn, hv⟩ := Option.map_eq_some'.mp h
      rw [hd _ _ hn]
      simpa using hv
    · rw [if_neg h1] at h ⊢
      by_cases h2 : c = '-'
      · rw [if_pos h2] at h ⊢
        obtain ⟨n, hn, hv⟩ := Option.map_eq_some'.mp h
        rw [hd _ _ hn]
        simpa using hv
      · rw [if_neg h2] at h ⊢
        obtain ⟨n, hn, hv⟩ := Option.map_eq_some'.mp h
        rw [hd _ _ hn]
        simpa using hv

lemma pyInt_of_conventional {s : String} {v : Int}
    (h : conventionalInt s = some v) : pyInt s = some v :=
  pySigned_mono pyDigits_of_convDigits _ _ h

lemma read_int_step_invalid (prompt line : String) (rest : List String) (fuel : Nat)
    (h : pyInt line = none) :
    read_int prompt (line :: rest) (fuel + 1) =
      ((read_int prompt rest fuel).1,
        (prompt ++ "\n> ") :: invalidIntMsg :: (read_int prompt rest fuel).2) := by
  simp only [read_int, List.headD_cons, List.tail_cons, h]

lemma read_int_step_valid (prompt line : String) (rest : List String) (fuel : Nat)
    (v : Int) (h : pyInt line = some v) :
    read_int prompt (line :: rest) (fuel + 1) = (some (v, rest), [prompt ++ "\n> "]) := by
  simp only [read_int, List.headD_cons, List.tail_cons, h]

lemma solicit_sound : ∀ (fuel : Nat) (piles : List Int) (input : List String)
    (fuelR : Nat) (p a : Int) (rest out : List String),
    solicit piles input fuel fuelR = (some ((p, a), rest), out) →
    Nim.move_is_valid piles p a = some true := by
  intro fuel
  induction fuel with
  | zero =>
    intro piles input fuelR p a rest out h
    exact absurd h (by simp [solicit])
  | succ f ih =>
    intro piles input fuelR p a rest out h
    simp only [solicit] at h
    split at h
    · exact absurd h (by simp)
    · split at h
      · exact absurd h (by simp)
      · simp only [Prod.mk.injEq, Option.some.injEq] at h
        obtain ⟨⟨⟨hp, ha⟩, -⟩, -⟩ := h
        rw [← hp, ← ha]
        assumption
      · simp only [Prod.mk.injEq] at h
        obtain ⟨h1, -⟩ := h
        exact ih piles _ fuelR p a rest (solicit piles _ f fuelR).2 (by rw [← h1])

end NimDriver

/-- C1 (amended).  `move_is_valid` returns `some false` for every
non-positive amount, for every pile index at least `pile_count`, and — when
the addressed pile exists — exactly when the amount exceeds that pile; but a
negative pile index in `[-pile_count, -1]` is resolved from the end of the
list (Python indexing) and can validate as `true`, and a pile index below
`-pile_count` (with positive amount) raises an `IndexError` (`none`) instead
of returning a boolean. -/
theorem c1_move_is_valid_cases (piles : List Int) (pile amount : Int) :
    (amount ≤ 0 → Nim.move_is_valid piles pile amount = some false) ∧
    ((piles.length : Int) ≤ pile → Nim.move_is_valid piles pile amount = some false) ∧
    (∀ v : Int, 0 < amount → 0 ≤ pile → piles.get? pile.toNat = some v →
      Nim.move_is_valid piles pile amount = some (decide (amount ≤ v))) ∧
    (∀ v : Int, 0 < amount → pile < 0 → -(piles.length : Int) ≤ pile →
      piles.get? ((piles.length : Int) + pile).toNat = some v →
      Nim.move_is_valid piles pile amount = some (decide (amount ≤ v))) ∧
    (0 < amount → pile < -(piles.length : Int) →
      Nim.move_is_valid piles pile amount = none) := by
  refine ⟨fun h => Nim.move_is_valid_nonpos _ h,
    fun h => Nim.move_is_valid_index_ge _ h, ?_, ?_,
    fun h1 h2 => Nim.move_is_valid_raises h1 h2⟩
  · intro v ha hp hv
    exact Nim.move_is_valid_eval (Nim.pyNorm_of_nonneg hp)
      (List.get?_eq_some.mp hv).1 hv ha
  · intro v ha hp hge hv
    have hj : Nim.pyNorm piles pile = ((((piles.length : Int) + pile).toNat : Nat) : Int) := by
      rw [Nim.pyNorm_of_neg hp]
      omega
    exact Nim.move_is_valid_eval hj (List.get?_eq_some.mp hv).1 hv ha

/-- C1 counterexample.  The claim says `is_move_valid` returns `false` for
every pile index outside `[0, pile_count)` and never raises; but on the
initial state, index `-1` with amount `1` validates as `true` (Python
resolves it to the last pile), and index `-4` raises an `IndexError`
(modelled as `none`) rather than returning a boolean. -/
theorem c1_counterexample :
    Nim.move_is_valid [3, 4, 5] (-1) 1 = some true ∧
    Nim.move_is_valid [3, 4, 5] (-4) 1 = none := by
  decide

/-- C1 witness: the amended theorem applied at concrete inputs. -/
theorem c1_witness :
    Nim.move_is_valid [3, 4, 5] 0 0 = some false ∧
    Nim.move_is_valid [3, 4, 5] 5 1 = some false ∧
    Nim.move_is_valid [3, 4, 5] 1 5 = some (decide ((5 : Int) ≤ 4)) ∧
    Nim.move_is_valid [3, 4, 5] (-2) 1 = some (decide ((1 : Int) ≤ 4)) ∧
    Nim.move_is_valid [3, 4, 5] (-4) 2 = none :=
  ⟨(c1_move_is_valid_cases [3, 4, 5] 0 0).1 (by decide),
   (c1_move_is_valid_cases [3, 4, 5] 5 1).2.1 (by decide),
   (c1_move_is_valid_cases [3, 4, 5] 1 5).2.2.1 4 (by decide) (by decide) (by decide),
   (c1_move_is_valid_cases [3, 4, 5] (-2) 1).2.2.2.1 4 (by decide) (by decide)
     (by decide) (by decide),
   (c1_move_is_valid_cases [3, 4, 5] (-4) 2).2.2.2.2 (by decide) (by decide)⟩

/-- C3.  For every valid move `(p, a)` with `0 ≤ p < 3` and
`1 ≤ a ≤ piles[p]` on a 3-pile state, `play` succeeds, decreases pile `p`
by exactly `a`, and leaves the pile count and every other pile unchanged. -/
theorem c3_apply_move_frame (piles : List Int) (p a v : Int)
    (hlen : piles.length = 3) (hp0 : 0 ≤ p) (hp3 : p < 3)
    (hv : piles.get? p.toNat = some v) (ha1 : 1 ≤ a) (ha2 : a ≤ v) :
    ∃ piles2, Nim.play piles p a = some piles2 ∧ piles2.length = 3 ∧
      piles2.get? p.toNat = some (v - a) ∧
      ∀ q : Nat, (q : Int) ≠ p → piles2.get? q = piles.get? q := by
  have hj : Nim.pyNorm piles p = ((p.toNat : Nat) : Int) := Nim.pyNorm_of_nonneg hp0
  have hlt : p.toNat < piles.length := (List.get?_eq_some.mp hv).1
  refine ⟨piles.set p.toNat (v - a),
    Nim.play_eval hj hlt hv (by omega) ha2, ?_, ?_, ?_⟩
  · rw [List.length_set]
    exact hlen
  · exact List.get?_set_eq_of_lt _ hlt
  · intro q hq
    exact List.get?_set_ne _ _ (by omega)

/-- C3 witness: the theorem applied to the initial state with move `(1, 2)`. -/
theorem c3_witness :
    ∃ piles2, Nim.play [3, 4, 5] 1 2 = some piles2 ∧ piles2.length = 3 ∧
      piles2.get? (1 : Int).toNat = some (4 - 2) ∧
      ∀ q : Nat, (q : Int) ≠ 1 → piles2.get? q = ([3, 4, 5] : List Int).get? q :=
  c3_apply_move_frame [3, 4, 5] 1 2 4 (by decide) (by decide) (by decide)
    (by decide) (by decide) (by decide)

/-- C4.  On every reachable game state, `can_continue` is `true` iff the sum
of the piles is nonzero, and `false` iff every pile equals 0. -/
theorem c4_has_moves_remaining (s : List Int) (h : Nim.Reachable s) :
    (Nim.can_continue s = true ↔ s.sum ≠ 0) ∧
    (Nim.can_continue s = false ↔ ∀ x ∈ s, x = 0) := by
  obtain ⟨-, hnn⟩ := Nim.reachable_inv h
  refine ⟨by simp [Nim.can_continue], ?_, ?_⟩
  · intro hc
    exact Nim.sum_zero_all_zero hnn (by simpa [Nim.can_continue] using hc)
  · intro hz
    simp [Nim.can_continue, List.sum_eq_zero hz]

/-- C4 witness: the theorem applied to the initial state. -/
theorem c4_witness :
    (Nim.can_continue [3, 4, 5] = true ↔ ([3, 4, 5] : List Int).sum ≠ 0) ∧
    (Nim.can_continue [3, 4, 5] = false ↔ ∀ x ∈ ([3, 4, 5] : List Int), x = 0) :=
  c4_has_moves_remaining [3, 4, 5] Nim.Reachable.init

/-- C6.  Calling `play` with a move that `move_is_valid` rejects fails (the
assertion aborts before the mutation, so no state is produced and the
caller's state is unchanged), and with a validated move it does not fail. -/
theorem c6_apply_move_contract (piles : List Int) (p a : Int) :
    (Nim.move_is_valid piles p a = some false → Nim.play piles p a = none) ∧
    (Nim.move_is_valid piles p a = some true → (Nim.play piles p a).isSome = true) :=
  ⟨fun h => Nim.play_none_of_invalid (by simp [h]),
   fun h => Nim.play_isSome_of_valid h⟩

/-- C6 witness: the theorem applied to a rejected and to a valid move. -/
theorem c6_witness :
    Nim.play [3, 4, 5] 0 4 = none ∧ (Nim.play [3, 4, 5] 0 3).isSome = true :=
  ⟨(c6_apply_move_contract [3, 4, 5] 0 4).1 (by decide),
   (c6_apply_move_contract [3, 4, 5] 0 3).2 (by decide)⟩

/-- C7.  The game-state invariant: every reachable state (the initial state
`[3, 4, 5]` and the states obtained from it by successful `play` calls) has
exactly 3 piles, each non-negative. -/
theorem c7_invariant (s : List Int) (h : Nim.Reachable s) :
    s.length = 3 ∧ ∀ x ∈ s, 0 ≤ x :=
  Nim.reachable_inv h

/-- C7 witness: the theorem applied to the initial state. -/
theorem c7_witness :
    ([3, 4, 5] : List Int).length = 3 ∧ ∀ x ∈ ([3, 4, 5] : List Int), 0 ≤ x :=
  c7_invariant [3, 4, 5] Nim.Reachable.init

/-- C10.  Negative pile indices address piles from the end: on a 3-pile
state, for `-3 ≤ p ≤ -1` and `1 ≤ amount ≤ piles[p + 3]`, `move_is_valid`
returns `true` and `play` removes the amount from pile `p + 3`; for
`p ≤ -4` (with positive amount) `move_is_valid` raises an `IndexError`
(`none`) instead of returning a boolean. -/
theorem c10_negative_index :
    (∀ (piles : List Int) (p a v : Int), piles.length = 3 → -3 ≤ p → p ≤ -1 →
      piles.get? ((3 : Int) + p).toNat = some v → 1 ≤ a → a ≤ v →
      Nim.move_is_valid piles p a = some true ∧
      Nim.play piles p a = some (piles.set ((3 : Int) + p).toNat (v - a))) ∧
    (∀ (piles : List Int) (p a : Int), piles.length = 3 → p ≤ -4 → 0 < a →
      Nim.move_is_valid piles p a = none) := by
  constructor
  · intro piles p a v hlen hp1 hp2 hv ha1 ha2
    have hj : Nim.pyNorm piles p = ((((3 : Int) + p).toNat : Nat) : Int) := by
      rw [Nim.pyNorm_of_neg (by omega), hlen]
      omega
    have hlt : ((3 : Int) + p).toNat < piles.length := by
      rw [hlen]
      omega
    exact ⟨by rw [Nim.move_is_valid_eval hj hlt hv (by omega), decide_eq_true ha2],
      Nim.play_eval hj hlt hv (by omega) ha2⟩
  · intro piles p a hlen hp ha
    exact Nim.move_is_valid_raises ha (by rw [hlen]; omega)

/-- C10 witness: the theorem applied at indices `-1` and `-4` on the initial
state. -/
theorem c10_witness :
    (Nim.move_is_valid [3, 4, 5] (-1) 2 = some true ∧
      Nim.play [3, 4, 5] (-1) 2 =
        some (([3, 4, 5] : List Int).set ((3 : Int) + -1).toNat (5 - 2))) ∧
    Nim.move_is_valid [3, 4, 5] (-4) 1 = none :=
  ⟨c10_negative_index.1 [3, 4, 5] (-1) 2 5 (by decide) (by decide) (by decide)
     (by decide) (by decide) (by decide),
   c10_negative_index.2 [3, 4, 5] (-4) 1 (by decide) (by decide) (by decide)⟩

/-- C5.  On every reachable state where `can_continue` is `true`,
`random_move` — for every outcome of the randomness source — returns a pile
index whose pile is non-empty and an amount in `[1, pile_size]`; and on the
state `[0, 2, 0]` it always returns pile index 1 with an amount in `[1, 2]`. -/
theorem c5_pick_random_legal :
    (∀ s : List Int, Nim.Reachable s → Nim.can_continue s = true → ∀ c a : Nat,
      ∃ (p : Nat) (amt : Int), Nim.random_move s c a = some (p, amt) ∧
        0 < s.getD p 0 ∧ 1 ≤ amt ∧ amt ≤ s.getD p 0) ∧
    (∀ c a : Nat, ∃ amt : Int, Nim.random_move [0, 2, 0] c a = some (1, amt) ∧
      1 ≤ amt ∧ amt ≤ 2) := by
  constructor
  · intro s hr hc c a
    obtain ⟨-, hnn⟩ := Nim.reachable_inv hr
    have hsum : s.sum ≠ 0 := by simpa [Nim.can_continue] using hc
    exact Nim.random_move_legal hnn hsum c a
  · intro c a
    have hcands : (List.range ([0, 2, 0] : List Int).length).filter
        (fun i => 0 < ([0, 2, 0] : List Int).getD i 0) = [1] := by decide
    have h := Nim.random_move_eq_of_cands c a hcands
    simp [Nat.mod_one] at h
    exact ⟨1 + ((a : Int) % 2), h, by omega, by omega⟩

/-- C5 witness: the theorem applied to the initial state (which is reachable
and has moves remaining) with one concrete outcome of the randomness
source. -/
theorem c5_witness :
    ∃ (p : Nat) (amt : Int), Nim.random_move [3, 4, 5] 0 0 = some (p, amt) ∧
      0 < ([3, 4, 5] : List Int).getD p 0 ∧ 1 ≤ amt ∧
      amt ≤ ([3, 4, 5] : List Int).getD p 0 :=
  c5_pick_random_legal.1 [3, 4, 5] Nim.Reachable.init (by decide) 0 0

namespace NimDriver

lemma solicit_step_invalid (piles : List Int) (input input2 o : List String)
    (fuel fuelR : Nat) (p a : Int)
    (hask : ask_move input fuelR = (some ((p, a), input2), o))
    (hmv : Nim.move_is_valid piles p a = some false) :
    solicit piles input (fuel + 1) fuelR =
      ((solicit piles input2 fuel fuelR).1,
        o ++ invalidMoveMsg :: (solicit piles input2 fuel fuelR).2) := by
  simp only [solicit, hask, hmv]

end NimDriver

/-- C2 (code bug).  The claim — and the spec — say a closed stream while
awaiting input aborts the session immediately, with the read not retried and
no further writes.  In the code, `readline` on a closed stream returns the
empty string (EOF), `int('')` raises the `ValueError` that `_read_int`
catches as ordinary malformed input, and the loop retries the read without
bound: with the input exhausted, `_read_int` never returns within any number
`fuel` of iterations and writes two more lines (prompt and invalid-integer
message) per iteration. -/
theorem c2_read_retries_at_eof (prompt : String) (fuel : Nat) :
    (NimDriver.read_int prompt [] fuel).1 = none ∧
    (NimDriver.read_int prompt [] fuel).2.length = 2 * fuel := by
  induction fuel with
  | zero => exact ⟨rfl, rfl⟩
  | succ f ih =>
    have hpy : NimDriver.pyInt "" = none := by decide
    simp only [NimDriver.read_int, List.headD_nil, List.tail_nil, hpy]
    refine ⟨ih.1, ?_⟩
    simp only [List.length_cons, ih.2]
    omega

/-- C8.  The driver's move-solicitation loop only ever hands the engine a
move its predicate accepted: whenever `solicit` completes with a move, that
move satisfies `move_is_valid` (so the subsequent `play` cannot fail), and
whenever a solicited move is rejected, the driver emits `Not a valid move.`
and re-solicits both pile index and amount from scratch; the pile state is
only read, never written, throughout (it is not an output of `solicit`). -/
theorem c8_driver_validates :
    (∀ (piles : List Int) (input : List String) (fuel fuelR : Nat) (p a : Int)
      (rest out : List String),
      NimDriver.solicit piles input fuel fuelR = (some ((p, a), rest), out) →
      Nim.move_is_valid piles p a = some true ∧ (Nim.play piles p a).isSome = true) ∧
    (∀ (piles : List Int) (input input2 o : List String) (fuel fuelR : Nat)
      (p a : Int),
      NimDriver.ask_move input fuelR = (some ((p, a), input2), o) →
      Nim.move_is_valid piles p a = some false →
      NimDriver.solicit piles input (fuel + 1) fuelR =
        ((NimDriver.solicit piles input2 fuel fuelR).1,
          o ++ NimDriver.invalidMoveMsg ::
            (NimDriver.solicit piles input2 fuel fuelR).2)) := by
  constructor
  · intro piles input fuel fuelR p a rest out h
    have hv := NimDriver.solicit_sound fuel piles input fuelR p a rest out h
    exact ⟨hv, Nim.play_isSome_of_valid hv⟩
  · intro piles input input2 o fuel fuelR p a hask hmv
    exact NimDriver.solicit_step_invalid piles input input2 o fuel fuelR p a hask hmv

/-- C8 witness: a session fragment in which the first solicited move `(5, 1)`
is rejected with the invalid-move message and the re-solicited move `(1, 4)`
is accepted, so the move handed to `play` is valid. -/
theorem c8_witness :
    (Nim.move_is_valid [3, 4, 5] 1 4 = some true ∧
      (Nim.play [3, 4, 5] 1 4).isSome = true) ∧
    NimDriver.solicit [3, 4, 5] ["5", "1", "1", "4"] (1 + 1) 5 =
      ((NimDriver.solicit [3, 4, 5] ["1", "4"] 1 5).1,
        [NimDriver.pilePrompt ++ "\n> ", NimDriver.amountPrompt ++ "\n> "] ++
          NimDriver.invalidMoveMsg ::
            (NimDriver.solicit [3, 4, 5] ["1", "4"] 1 5).2) :=
  ⟨c8_driver_validates.1 [3, 4, 5] ["5", "1", "1", "4"] 2 5 1 4 []
      [NimDriver.pilePrompt ++ "\n> ", NimDriver.amountPrompt ++ "\n> ",
       NimDriver.invalidMoveMsg,
       NimDriver.pilePrompt ++ "\n> ", NimDriver.amountPrompt ++ "\n> "]
      (by decide),
   c8_driver_validates.2 [3, 4, 5] ["5", "1", "1", "4"] ["1", "4"]
      [NimDriver.pilePrompt ++ "\n> ", NimDriver.amountPrompt ++ "\n> "]
      1 5 5 1 (by decide) (by decide)⟩

/-- C9 (amended).  The integer-input step accepts every conventional textual
representation of a signed integer (optional whitespace, optional sign,
nonempty digit run) — and additionally Python's underscore-grouped digit
runs, which is what the counterexample exhibits; an accepted line is
consumed with only the prompt emitted, and any line `int` rejects causes
the invalid-integer message to be emitted and the same prompt to be
re-issued by the next loop iteration, with the game state untouched
(`_read_int` never touches the engine state, which is accordingly not even
an argument of the model). -/
theorem c9_integer_input_step :
    (∀ (s : String) (v : Int),
      NimDriver.conventionalInt s = some v → NimDriver.pyInt s = some v) ∧
    (∀ (prompt line : String) (rest : List String) (fuel : Nat) (v : Int),
      NimDriver.pyInt line = some v →
      NimDriver.read_int prompt (line :: rest) (fuel + 1) =
        (some (v, rest), [prompt ++ "\n> "])) ∧
    (∀ (prompt line : String) (rest : List String) (fuel : Nat),
      NimDriver.pyInt line = none →
      NimDriver.read_int prompt (line :: rest) (fuel + 1) =
        ((NimDriver.read_int prompt rest fuel).1,
          (prompt ++ "\n> ") :: NimDriver.invalidIntMsg ::
            (NimDriver.read_int prompt rest fuel).2)) :=
  ⟨fun _ _ h => NimDriver.pyInt_of_conventional h,
   fun prompt line rest fuel v h =>
     NimDriver.read_int_step_valid prompt line rest fuel v h,
   fun prompt line rest fuel h =>
     NimDriver.read_int_step_invalid prompt line rest fuel h⟩

/-- C9 counterexample.  `1_2` is not a conventional textual representation
of a signed integer, yet the code accepts it (Python `int` allows
underscore-grouped digits, PEP 515): `int('1_2')` is 12 and the read loop
returns it without emitting the invalid-integer message. -/
theorem c9_counterexample :
    NimDriver.conventionalInt "1_2\n" = none ∧
    NimDriver.pyInt "1_2\n" = some 12 ∧
    NimDriver.read_int NimDriver.pilePrompt ["1_2\n"] 1 =
      (some (12, []), [NimDriver.pilePrompt ++ "\n> "]) :=
  ⟨by decide, by decide, by rfl⟩

/-- C9 witness: a conventional representation with sign and whitespace is
accepted, and the malformed line `abc` produces the invalid-integer message
followed by a fresh identical prompt, leaving the rest of the exchange as if
the loop had started over. -/
theorem c9_witness :
    NimDriver.pyInt " -17 \n" = some (-17) ∧
    NimDriver.read_int NimDriver.pilePrompt ["abc", "5"] (1 + 1) =
      ((NimDriver.read_int NimDriver.pilePrompt ["5"] 1).1,
        (NimDriver.pilePrompt ++ "\n> ") :: NimDriver.invalidIntMsg ::
          (NimDriver.read_int NimDriver.pilePrompt ["5"] 1).2) :=
  ⟨c9_integer_input_step.1 " -17 \n" (-17) (by decide),
   c9_integer_input_step.2.2 NimDriver.pilePrompt "abc" ["5"] 1 (by decide)⟩
